import Mathlib

set_option maxHeartbeats 1000000

/- Shallow embedding of scipy/integrate/_tanhsinh.py (tanh-sinh quadrature).

Floating-point arithmetic is modelled by ideal real arithmetic, extended
with an explicit type `EF` carrying the IEEE special values (positive and
negative infinity, NaN) that the source code manipulates and inspects
(np.isfinite, suppressed overflow warnings, log10 of zero, nan-propagating
np.max, Python's max, and so on). -/

/-- Extended value modelling an IEEE double: a finite real, +inf, -inf, or NaN. -/
inductive EF where
  | fin (x : ℝ)
  | pinf
  | ninf
  | nan

/-- IEEE negation of an extended value. -/
def efNeg : EF → EF
  | EF.fin x => EF.fin (-x)
  | EF.pinf => EF.ninf
  | EF.ninf => EF.pinf
  | EF.nan => EF.nan

/-- IEEE addition on extended values. -/
def efAdd : EF → EF → EF
  | EF.nan, _ => EF.nan
  | _, EF.nan => EF.nan
  | EF.fin x, EF.fin y => EF.fin (x + y)
  | EF.pinf, EF.ninf => EF.nan
  | EF.ninf, EF.pinf => EF.nan
  | EF.pinf, _ => EF.pinf
  | _, EF.pinf => EF.pinf
  | EF.ninf, _ => EF.ninf
  | _, EF.ninf => EF.ninf

/-- IEEE multiplication on extended values. -/
noncomputable def efMul : EF → EF → EF
  | EF.nan, _ => EF.nan
  | _, EF.nan => EF.nan
  | EF.fin x, EF.fin y => EF.fin (x * y)
  | EF.pinf, EF.pinf => EF.pinf
  | EF.pinf, EF.ninf => EF.ninf
  | EF.ninf, EF.pinf => EF.ninf
  | EF.ninf, EF.ninf => EF.pinf
  | EF.pinf, EF.fin y => if 0 < y then EF.pinf else if y < 0 then EF.ninf else EF.nan
  | EF.fin x, EF.pinf => if 0 < x then EF.pinf else if x < 0 then EF.ninf else EF.nan
  | EF.ninf, EF.fin y => if 0 < y then EF.ninf else if y < 0 then EF.pinf else EF.nan
  | EF.fin x, EF.ninf => if 0 < x then EF.ninf else if x < 0 then EF.pinf else EF.nan

/-- IEEE division on extended values (the form numpy produces for float64). -/
noncomputable def efDiv : EF → EF → EF
  | EF.nan, _ => EF.nan
  | _, EF.nan => EF.nan
  | EF.pinf, EF.pinf => EF.nan
  | EF.pinf, EF.ninf => EF.nan
  | EF.ninf, EF.pinf => EF.nan
  | EF.ninf, EF.ninf => EF.nan
  | EF.pinf, EF.fin y => if y < 0 then EF.ninf else EF.pinf
  | EF.ninf, EF.fin y => if y < 0 then EF.pinf else EF.ninf
  | EF.fin _, EF.pinf => EF.fin 0
  | EF.fin _, EF.ninf => EF.fin 0
  | EF.fin x, EF.fin y =>
      if y = 0 then (if 0 < x then EF.pinf else if x < 0 then EF.ninf else EF.nan)
      else EF.fin (x / y)

/-- IEEE squaring (the special case of `x**2` used for `d1**2`). -/
def efSq : EF → EF
  | EF.fin x => EF.fin (x ^ 2)
  | EF.pinf => EF.pinf
  | EF.ninf => EF.pinf
  | EF.nan => EF.nan

/-- Value of `10**d` on extended values. -/
noncomputable def efPow10 : EF → EF
  | EF.fin x => EF.fin ((10 : ℝ) ^ x)
  | EF.pinf => EF.pinf
  | EF.ninf => EF.fin 0
  | EF.nan => EF.nan

/-- Value of `np.log10 x` for a real argument: NaN for negative input,
-inf at zero, and the real base-10 logarithm otherwise. -/
noncomputable def efLog10 (x : ℝ) : EF :=
  if x < 0 then EF.nan else if x = 0 then EF.ninf else EF.fin (Real.logb 10 x)

/-- IEEE strict less-than as a boolean; any comparison with NaN is false. -/
noncomputable def efLtB : EF → EF → Bool
  | EF.nan, _ => false
  | _, EF.nan => false
  | EF.pinf, _ => false
  | EF.ninf, EF.ninf => false
  | EF.ninf, _ => true
  | _, EF.pinf => true
  | _, EF.ninf => false
  | EF.fin x, EF.fin y => if x < y then true else false

/-- Binary maximum with NaN propagation, as in `np.max` reduction. -/
noncomputable def efMax2 : EF → EF → EF
  | EF.nan, _ => EF.nan
  | _, EF.nan => EF.nan
  | EF.pinf, _ => EF.pinf
  | _, EF.pinf => EF.pinf
  | EF.ninf, y => y
  | x, EF.ninf => x
  | EF.fin x, EF.fin y => EF.fin (max x y)

/-- Python's builtin two-argument `max(x, y)`: returns `y` when `y > x`,
otherwise `x` (so a NaN second argument yields the first argument). -/
noncomputable def pyMaxEF (x y : EF) : EF := if efLtB x y then y else x

/-- Truth of `np.isfinite` on an extended value. -/
def efIsFinite : EF → Bool
  | EF.fin _ => true
  | _ => false

/-- Truth of `np.isinf` on an extended value. -/
def efIsInfB : EF → Bool
  | EF.pinf => true
  | EF.ninf => true
  | _ => false

/-- Underlying real of a finite extended value (0 on the special values;
only ever used where the code has already checked finiteness). -/
def efToReal : EF → ℝ
  | EF.fin x => x
  | _ => 0

/-- Value of `np.max` of a list of reals (maximum of all elements; the
code only applies it to nonempty arrays). -/
noncomputable def npmaxR : List ℝ → ℝ
  | [] => 0
  | x :: xs => xs.foldl max x

/-- Machine epsilon of float64, `np.finfo(np.float64).eps`. -/
noncomputable def eps64 : ℝ := 2 ^ (-52 : ℤ)

/- Pair generator `_compute_pairs` (lines 45-80 of the source). -/

/-- Step size for refinement level k: `h = 1 / (2 ** k)`. -/
noncomputable def ts_h (k : ℕ) : ℝ := 1 / 2 ^ k

/-- Index bound `max = int(np.ceil(6.115 * 2**k))`. -/
def ts_count (k : ℕ) : ℕ := Nat.ceil ((6115 / 1000 : ℚ) * 2 ^ k)

/-- Indices generated at level k: `np.arange(max)` when `k == 0`, else
`np.arange(1, max, 2)` (the odd indices below `max`, here written as the
arithmetic progression starting at 1 with step 2 and `max / 2` terms). -/
def ts_indices (k : ℕ) : List ℕ :=
  if k = 0 then List.range (ts_count k) else List.range' 1 (ts_count k / 2) 2

/-- Weight formula: `jh = j*h`, `u1 = (pi/2)*cosh(jh)`, `u2 = (pi/2)*sinh(jh)`,
`wj = u1 / cosh(u2)**2`. -/
noncomputable def wj_formula (h : ℝ) (j : ℕ) : ℝ :=
  let jh := (j : ℝ) * h
  let u1 := (Real.pi / 2) * Real.cosh jh
  let u2 := (Real.pi / 2) * Real.sinh jh
  u1 / Real.cosh u2 ^ 2

/-- Abscissa complement formula: `xjc = 1 / (exp(u2) * cosh(u2))`. -/
noncomputable def xjc_formula (h : ℝ) (j : ℕ) : ℝ :=
  let u2 := (Real.pi / 2) * Real.sinh ((j : ℝ) * h)
  1 / (Real.exp u2 * Real.cosh u2)

/-- Weights of level k, with `wj[0] = wj[0]/2 if k == 0 else wj[0]`. -/
noncomputable def ts_wj (k : ℕ) : List ℝ :=
  ((ts_indices k).map (wj_formula (ts_h k))).modifyHead (fun w => if k = 0 then w / 2 else w)

/-- Abscissa complements of level k. -/
noncomputable def ts_xjc (k : ℕ) : List ℝ := (ts_indices k).map (xjc_formula (ts_h k))

/-- The triple returned by `_compute_pairs(k)`. -/
noncomputable def compute_pairs (k : ℕ) : ℝ × List ℝ × List ℝ := (ts_h k, ts_xjc k, ts_wj k)

/-- Number of abscissa-weight pairs generated at level k. -/
def ts_N (k : ℕ) : ℕ := (ts_indices k).length

/- Domain transformer `_quadts_iv` (lines 318-344): the limit/integrand
rewriting chain applied after validation. -/

/-- Reversed-limit handling: `if b < a: f = -f; a, b = b, a`. -/
noncomputable def iv_stage1 (f : ℝ → EF) (a b : EF) : (ℝ → EF) × EF × EF :=
  if efLtB b a then ((fun x => efNeg (f x)), b, a) else (f, a, b)

/-- Infinite-lower-limit handling: fold doubly infinite integrals via
`f(x) + f(-x)` onto `(0, inf)` with evaluation multiplier 2, or reflect a
singly infinite lower limit via `f(-x)` onto `(-b, -a)`. -/
noncomputable def iv_stage2 : (ℝ → EF) × EF × EF → (ℝ → EF) × EF × EF × ℕ
  | (f, a, b) =>
    if efIsInfB a && efIsInfB b then
      ((fun x => efAdd (f x) (f (-x))), EF.fin 0, EF.pinf, 2)
    else if efIsInfB a then
      ((fun x => f (-x)), efNeg b, efNeg a, 1)
    else (f, a, b, 1)

/-- Infinite-upper-limit handling: `f(1/x - 1 + a) * x**-2` on `(0, 1)`. -/
noncomputable def iv_stage3 : (ℝ → EF) × EF × EF × ℕ → (ℝ → EF) × EF × EF × ℕ
  | (f, a, b, ff) =>
    if efIsInfB b then
      ((fun x => efMul (f (1 / x - 1 + efToReal a)) (EF.fin (1 / x ^ 2))), EF.fin 0, EF.fin 1, ff)
    else (f, a, b, ff)

/-- Full transform chain of `_quadts_iv` (after the validation checks):
returns the transformed integrand, limits, and evaluation multiplier. -/
noncomputable def quadts_iv (f : ℝ → EF) (a b : EF) : (ℝ → EF) × EF × EF × ℕ :=
  iv_stage3 (iv_stage2 (iv_stage1 f a b))

/-- The pair of limits handed to the engine loop. -/
noncomputable def ivLimits (f : ℝ → EF) (a b : EF) : EF × EF :=
  ((quadts_iv f a b).2.1, (quadts_iv f a b).2.2.1)

/-- The evaluation multiplier (`feval_factor`) produced by the transform. -/
noncomputable def ivFF (f : ℝ → EF) (a b : EF) : ℕ := (quadts_iv f a b).2.2.2

/- Quadrature engine: the loop body of `_tanhsinh` (lines 229-287). -/

/-- Mutable loop state of `_tanhsinh`: upcoming level `n`, the appended
estimate sequence `Sk`, current estimate `Sn`, error estimate `aerr`,
termination `status`, and the evaluation counter `feval`. -/
structure TSState where
  n : ℕ
  Sk : List ℝ
  Sn : EF
  aerr : EF
  status : ℤ
  feval : ℕ

/-- Validated parameters as seen by the engine loop. -/
structure TSParams where
  f : ℝ → EF
  a : ℝ
  b : ℝ
  maxfun : ℕ
  atol : ℝ
  rtol : ℝ
  minweight : ℝ
  ff : ℕ

/-- Scale factor `alpha = (b - a) / 2`. -/
noncomputable def tsAlpha (a b : ℝ) : ℝ := (b - a) / 2

/-- Transformed abscissas of level n:
`xj = concatenate((-alpha*xjc + b, alpha*xjc + a))`. -/
noncomputable def tsXj (a b : ℝ) (n : ℕ) : List ℝ :=
  (ts_xjc n).map (fun c => -tsAlpha a b * c + b) ++ (ts_xjc n).map (fun c => tsAlpha a b * c + a)

/-- Scaled, duplicated weights of level n: `wj *= alpha; wj = concatenate((wj, wj))`. -/
noncomputable def tsWj2 (a b : ℝ) (n : ℕ) : List ℝ :=
  (ts_wj n).map (fun w => w * tsAlpha a b) ++ (ts_wj n).map (fun w => w * tsAlpha a b)

/-- Raw per-point contributions `fjwj = fj * wj` before filtering. -/
noncomputable def tsFjwjRaw (f : ℝ → EF) (a b : ℝ) (n : ℕ) : List EF :=
  List.zipWith efMul ((tsXj a b n).map f) ((tsWj2 a b n).map EF.fin)

/-- Filtering predicate `invalid = (xj <= a) | (xj >= b) | (wj <= minweight)`. -/
def tsInvalid (a b minweight x w : ℝ) : Prop :=
  x ≤ a ∨ b ≤ x ∨ w ≤ minweight

/-- Decidability of the filtering predicate (classically, via the real order). -/
noncomputable instance (a b minweight x w : ℝ) : Decidable (tsInvalid a b minweight x w) := by
  unfold tsInvalid; infer_instance

/-- Contributions after `fjwj[invalid] = 0`. -/
noncomputable def tsFjwj (f : ℝ → EF) (a b minweight : ℝ) (n : ℕ) : List EF :=
  List.zipWith (fun v p => if tsInvalid a b minweight p.1 p.2 then EF.fin 0 else v)
    (tsFjwjRaw f a b n) (List.zip (tsXj a b n) (tsWj2 a b n))

/-- The `d4` term of the error heuristic:
`np.max(np.reshape(np.abs(fjwj), (2, -1))[:, -1])` passed to log10, i.e.
the larger of the absolute contributions at the last index of each of the
two concatenated halves (each half has N points). -/
noncomputable def engineD4 (c : List ℝ) (N : ℕ) : EF :=
  efLog10 (max |c.getD (N - 1) 0| |c.getD (2 * N - 1) 0|)

/-- The exponent `d = np.max([d1**2/d2, 2*d1, d3, d4])` of the error
heuristic, computed from the new estimate, the two most recently appended
estimates, and the per-point contributions `c`. -/
noncomputable def engineD (Sn Snm1 Snm2 : ℝ) (c : List ℝ) (N : ℕ) : EF :=
  let d1 := efLog10 |Sn - Snm1|
  let d2 := efLog10 |Sn - Snm2|
  let d3 := efLog10 (eps64 * npmaxR (c.map abs))
  let d4 := engineD4 c N
  efMax2 (efMax2 (efMax2 (efDiv (efSq d1) d2) (efMul (EF.fin 2) d1)) d3) d4

/-- Relative error estimate `rerr = 10**d`. -/
noncomputable def engineRerr (Sn Snm1 Snm2 : ℝ) (c : List ℝ) (N : ℕ) : EF :=
  efPow10 (engineD Sn Snm1 Snm2 c N)

/-- Absolute error estimate `aerr = max(np.finfo(np.float64).eps, rerr) * abs(Sn)`. -/
noncomputable def engineAerr (rerr : EF) (Sn : ℝ) : EF :=
  efMul (pyMaxEF (EF.fin eps64) rerr) (EF.fin |Sn|)

/-- Termination test `rerr < rtol or rerr * abs(Sn) < atol`. -/
noncomputable def engineConverged (rerr : EF) (Sn rtol atol : ℝ) : Bool :=
  efLtB rerr (EF.fin rtol) || efLtB (efMul rerr (EF.fin |Sn|)) (EF.fin atol)

/-- One pass of the `for n in range(maxiter)` loop body; the boolean is
true when the loop continues to the next level and false on `break`. -/
noncomputable def tsIter (P : TSParams) (s : TSState) : TSState × Bool :=
  let xj := tsXj P.a P.b s.n
  if P.maxfun < s.feval + xj.length * P.ff then ({ s with status := 1 }, false)
  else
    let fjwj := tsFjwj P.f P.a P.b P.minweight s.n
    let feval1 := s.feval + xj.length * P.ff
    if ¬ fjwj.all efIsFinite then ({ s with status := 3, feval := feval1 }, false)
    else
      let c := fjwj.map efToReal
      let Sn := s.Sk.getLastD 0 / 2 + c.sum * ts_h s.n
      if 2 ≤ s.n then
        let rerr := engineRerr Sn (s.Sk.getLastD 0) (s.Sk.dropLast.getLastD 0) c (ts_N s.n)
        let aerr := engineAerr rerr Sn
        if engineConverged rerr Sn P.rtol P.atol then
          ({ s with Sn := EF.fin Sn, aerr := aerr, status := 0, feval := feval1 }, false)
        else
          ({ s with Sn := EF.fin Sn, aerr := aerr, feval := feval1, Sk := s.Sk ++ [Sn], n := s.n + 1 }, true)
      else
        ({ s with Sn := EF.fin Sn, feval := feval1, Sk := s.Sk ++ [Sn], n := s.n + 1 }, true)

/-- The loop driver: runs up to `fuel` more iterations; exhausting the
iteration budget sets status 2 (the for-else clause). -/
noncomputable def tsLoop (P : TSParams) : ℕ → TSState → TSState
  | 0, s => { s with status := 2 }
  | fuel + 1, s =>
    match tsIter P s with
    | (s1, true) => tsLoop P fuel s1
    | (s1, false) => s1

/-- Initial state: `Sk = []`, `Sn = aerr = nan`, `status = -1`, `feval = 0`. -/
def ts_init : TSState := ⟨0, [], EF.nan, EF.nan, -1, 0⟩

/-- Full engine run with iteration budget `maxiter`. -/
noncomputable def tsRun (P : TSParams) (maxiter : ℕ) : TSState := tsLoop P maxiter ts_init

/-- Messages of the `_status_messages` table. -/
def statusMessage (status : ℤ) : String :=
  if status = -1 then "Iteration in progress."
  else if status = 0 then
    "The algorithm completed successfully, and the error estimate meets the requested tolerance."
  else if status = 1 then
    "The error estimate does not meet the specified tolerance, but performing additional iterations cause the function evaluation limit to be exceeded."
  else if status = 2 then
    "The error estimate does not meet the specified tolerance, but performing additional iterations would cause the iteration limit to be exceeded."
  else
    "An invalid value (e.g. overflow, NaN) was encountered within the integration interval. See documentation notes for more information."

/-- Result record of `_tanhsinh`. -/
structure QuadratureResult where
  integral : EF
  error : EF
  feval : ℕ
  success : Bool
  status : ℤ
  message : String

/-- Packaging of the final loop state into the returned record; `success`
is `status == 0`. -/
def mkResult (s : TSState) : QuadratureResult :=
  ⟨s.Sn, s.aerr, s.feval, s.status == 0, s.status, statusMessage s.status⟩

/-- Engine parameters produced by `_quadts_iv` for a call `_tanhsinh(f, a, b, ...)`. -/
noncomputable def tanhsinhParams (f : ℝ → EF) (a b : EF) (maxfun : ℕ)
    (atol rtol minweight : ℝ) : TSParams :=
  ⟨(quadts_iv f a b).1, efToReal (quadts_iv f a b).2.1, efToReal (quadts_iv f a b).2.2.1,
   maxfun, atol, rtol, minweight, (quadts_iv f a b).2.2.2⟩

/-- Final loop state of a call `_tanhsinh(f, a, b, ...)`. -/
noncomputable def tanhsinhFinal (f : ℝ → EF) (a b : EF) (maxfun maxiter : ℕ)
    (atol rtol minweight : ℝ) : TSState :=
  tsRun (tanhsinhParams f a b maxfun atol rtol minweight) maxiter

/-- The `QuadratureResult` returned by `_tanhsinh(f, a, b, ...)`. -/
noncomputable def tanhsinh (f : ℝ → EF) (a b : EF) (maxfun maxiter : ℕ)
    (atol rtol minweight : ℝ) : QuadratureResult :=
  mkResult (tanhsinhFinal f a b maxfun maxiter atol rtol minweight)

/- Claim-side definitions, written from the words of the spec sentences
they formalise (used to compare against the source-derived definitions). -/

/-- Claim C2 wording for d4: log10 of the maximum absolute per-point
contribution over the last half of the points (the final sub-block of the
concatenated contribution array of length 2N). -/
noncomputable def claimD4 (c : List ℝ) (N : ℕ) : EF :=
  efLog10 (npmaxR ((c.drop N).map abs))

/-- Claim C4 wording for the index range: all indices `0..M-1` at level 0,
and only the odd indices `1, 3, 5, ..., M-1` at positive levels, with
`M = ceil(6.115 * 2^k)`. -/
def specIndices (k : ℕ) : List ℕ :=
  let M := Nat.ceil ((6115 / 1000 : ℚ) * 2 ^ k)
  if k = 0 then List.range M else (List.range M).filter (fun j => j % 2 = 1)

/-- Claim C4 wording for the pair generator: `h = 2^-k`; for each index j,
weight `u1/cosh(u2)^2` and complement `1/(exp(u2)*cosh(u2))`; and at level
0 the first weight (the midpoint) halved. -/
noncomputable def specPairs (k : ℕ) : ℝ × List ℝ × List ℝ :=
  let h : ℝ := 2 ^ (-(k : ℤ))
  let wjs := (specIndices k).map (wj_formula h)
  (h, (specIndices k).map (xjc_formula h),
    if k = 0 then wjs.modifyHead (fun w => w / 2) else wjs)

/-- Claim C3 wording for the relative error estimate: `d1 = log10|Sn-Snm1|`,
`d2 = log10|Sn-Snm2|`, `d3 = log10(machine_epsilon * max|contribution|)`,
d4 as the engine defines it, `d = max(d1^2/d2, 2*d1, d3, d4)`, `rerr = 10^d`. -/
noncomputable def specRerr (Sn Snm1 Snm2 : ℝ) (c : List ℝ) (N : ℕ) : EF :=
  let d1 := efLog10 |Sn - Snm1|
  let d2 := efLog10 |Sn - Snm2|
  let d3 := efLog10 (eps64 * npmaxR (c.map abs))
  let d4 := engineD4 c N
  efPow10 (efMax2 (efMax2 (efMax2 (efDiv (efSq d1) d2) (efMul (EF.fin 2) d1)) d3) d4)

/-- Claim C3 wording for the absolute error: `aerr = max(machine_epsilon, rerr) * |Sn|`. -/
noncomputable def specAerr (rerr : EF) (Sn : ℝ) : EF :=
  efMul (pyMaxEF (EF.fin eps64) rerr) (EF.fin |Sn|)

/-- Claim C3 wording for the termination rule: `rerr < rtol or rerr * |Sn| < atol`. -/
noncomputable def specConverged (rerr : EF) (Sn rtol atol : ℝ) : Prop :=
  efLtB rerr (EF.fin rtol) = true ∨ efLtB (efMul rerr (EF.fin |Sn|)) (EF.fin atol) = true

/-- The invariant of a run with equal limits: all appended estimates are
zero, the current estimate is zero, and status 3 never occurred. -/
def DiagInv (s : TSState) : Prop :=
  (∀ x ∈ s.Sk, x = 0) ∧ s.Sn = EF.fin 0 ∧ s.status ≠ 3

/-- State correspondence for integrating the negated integrand: the
estimate sequence and current estimate are negated, everything else
(error, status, counters) is unchanged. -/
def negState (s : TSState) : TSState :=
  { s with Sk := s.Sk.map (fun x => -x), Sn := efNeg s.Sn }

/- Theorems. -/

/-- The arithmetic progression `1, 3, ..., < m` is the list of odd numbers
below m. -/
theorem range'_step2_eq_filter_odd (m : ℕ) :
    List.range' 1 (m / 2) 2 = (List.range m).filter (fun j => j % 2 = 1) := by
  induction m with
  | zero => rfl
  | succ m ih =>
    rw [List.range_succ, List.filter_append]
    rcases Nat.mod_two_eq_zero_or_one m with h | h
    · have h2 : (m + 1) / 2 = m / 2 := by omega
      rw [h2, ih]
      simp [List.filter, h]
    · have h2 : (m + 1) / 2 = m / 2 + 1 := by omega
      have h3 : 1 + 2 * (m / 2) = m := by omega
      rw [h2, List.range'_concat, h3, ih]
      simp [List.filter, h]

/-- Applying the identity to the head changes nothing. -/
theorem modifyHead_id (l : List ℝ) : l.modifyHead (fun w => w) = l := by
  cases l <;> simp [List.modifyHead]

/-- Claim C4: for every non-negative integer level k, the pair generator
returns h = 2^-k and, with M = ceil(6.115 * 2^k), produces indices 0..M-1
when k = 0 and only the odd indices 1, 3, ..., M-1 when k > 0; each index
j yields weight u1/cosh(u2)^2 and abscissa complement 1/(exp(u2)*cosh(u2))
with u1 = (pi/2)cosh(jh), u2 = (pi/2)sinh(jh), jh = j*h; and at level 0
the first weight (the midpoint) is halved. -/
theorem claim4_pair_generator (k : ℕ) : compute_pairs k = specPairs k := by
  have hh : (2 : ℝ) ^ (-(k : ℤ)) = ts_h k := by
    rw [zpow_neg, zpow_natCast, ts_h, one_div]
  have hidx : specIndices k = ts_indices k := by
    unfold specIndices ts_indices ts_count
    rcases eq_or_ne k 0 with h | h
    · simp [h]
    · simp [h, ← range'_step2_eq_filter_odd]
  unfold compute_pairs specPairs ts_xjc ts_wj
  rw [hidx, hh]
  rcases eq_or_ne k 0 with h | h
  · subst h
    simp
  · simp only [h, if_false, modifyHead_id]

/-- Claim C1 is false as stated: for the accepted finite limits a = 2,
b = 5 the transform hands the engine the limits (2, 5), not (0, 1). -/
theorem claim1_counterexample :
    ivLimits (fun _ => EF.fin 0) (EF.fin 2) (EF.fin 5) ≠ (EF.fin 0, EF.fin 1) := by
  unfold ivLimits quadts_iv iv_stage1 iv_stage2 iv_stage3
  norm_num [efLtB, efIsInfB]

/-- Claim C1 amended: whenever at least one of the accepted limits is
infinite, the transform hands the engine loop exactly the limits (0, 1);
finite limits are passed through unchanged, up to swapping into ascending
order when given reversed. -/
theorem claim1_amended (f : ℝ → EF) (a b : EF) :
    (efIsInfB a = true ∨ efIsInfB b = true → ivLimits f a b = (EF.fin 0, EF.fin 1)) ∧
    (∀ (x y : ℝ), ivLimits f (EF.fin x) (EF.fin y) =
      if y < x then (EF.fin y, EF.fin x) else (EF.fin x, EF.fin y)) := by
  constructor
  · intro h
    cases a <;> cases b <;>
      (try (exfalso; simpa [efIsInfB] using h)) <;>
      simp [ivLimits, quadts_iv, iv_stage1, iv_stage2, iv_stage3, efLtB, efIsInfB, efNeg]
  · intro x y
    by_cases hlt : y < x
    · simp [ivLimits, quadts_iv, iv_stage1, iv_stage2, iv_stage3, efLtB, efIsInfB, hlt]
    · simp [ivLimits, quadts_iv, iv_stage1, iv_stage2, iv_stage3, efLtB, efIsInfB, hlt]

/-- Witness for the amended claim C1: the doubly infinite limits land on
(0, 1), and the accepted finite limits (2, 5) pass through unchanged. -/
theorem claim1_amended_witness :
    ivLimits (fun _ => EF.fin 0) EF.ninf EF.pinf = (EF.fin 0, EF.fin 1) ∧
    ivLimits (fun _ => EF.fin 0) (EF.fin 2) (EF.fin 5) =
      (if (5 : ℝ) < 2 then (EF.fin 5, EF.fin 2) else (EF.fin 2, EF.fin 5)) :=
  ⟨(claim1_amended (fun _ => EF.fin 0) EF.ninf EF.pinf).1 (Or.inl rfl),
   (claim1_amended (fun _ => EF.fin 0) EF.ninf EF.pinf).2 2 5⟩

/-- Claim C2 is false as stated: on the contribution array [0, 0, 5, 0]
(two halves of length N = 2), the engine's d4 is log10 of the maximum of
the LAST POINT of each half (here 0, giving -inf), not log10 of the
maximum over the last half of the points (here 5, giving log10 5). -/
theorem claim2_counterexample :
    engineD4 [0, 0, 5, 0] 2 ≠ claimD4 [0, 0, 5, 0] 2 := by
  unfold engineD4 claimD4 npmaxR efLog10
  norm_num [List.getD]
  intro hcon
  exact EF.noConfusion hcon

/-- Claim C2 amended: in the convergence check, d4 equals log10 of the
larger of the absolute per-point contributions at the final index of each
of the two concatenated halves of the contribution array (the final
column of the 2-row reshape), not over the whole last half. -/
theorem claim2_amended (h1 h2 : List ℝ) (N : ℕ)
    (e1 : h1.length = N) (e2 : h2.length = N) (hN : 0 < N) :
    engineD4 (h1 ++ h2) N = efLog10 (max |h1.getD (N - 1) 0| |h2.getD (N - 1) 0|) := by
  unfold engineD4
  have hlt : N - 1 < h1.length := by omega
  have hge : h1.length ≤ 2 * N - 1 := by omega
  rw [List.getD_append _ _ _ _ hlt, List.getD_append_right _ _ _ _ hge]
  have hsub : 2 * N - 1 - h1.length = N - 1 := by omega
  rw [hsub]

/-- Witness for the amended claim C2 on concrete halves [1] and [2]. -/
theorem claim2_amended_witness :
    engineD4 ([1] ++ [2]) 1 = efLog10 (max |(1 : ℝ)| |(2 : ℝ)|) := by
  have h := claim2_amended [1] [2] 1 rfl rfl (by decide)
  simpa using h

/-- Level 0 generates 7 abscissa-weight pairs (indices 0..6, M = ceil(6.115) = 7). -/
theorem ts_N_zero : ts_N 0 = 7 := by
  have h7 : ts_count 0 = 7 := by
    unfold ts_count
    rw [Nat.ceil_eq_iff] <;> norm_num
  simp [ts_N, ts_indices, h7]

/-- The engine evaluates 2 * N points per level (both branches). -/
theorem tsXj_length (a b : ℝ) (n : ℕ) : (tsXj a b n).length = 2 * ts_N n := by
  simp [tsXj, ts_N, ts_xjc]
  ring

/-- The duplicated weight array also has 2 * N entries. -/
theorem tsWj2_length (a b : ℝ) (n : ℕ) : (tsWj2 a b n).length = 2 * ts_N n := by
  simp [tsWj2, ts_N, ts_wj, List.length_modifyHead]
  ring

/-- Shape of one loop pass: the evaluation counter either stays (break on
the budget check) or increases by exactly this level's point count times
the evaluation multiplier, in which case it respects the budget. -/
theorem tsIter_feval_shape (P : TSParams) (s : TSState) :
    (tsIter P s).1.feval = s.feval ∨
    ((tsIter P s).1.feval = s.feval + (tsXj P.a P.b s.n).length * P.ff ∧
      (tsIter P s).1.feval ≤ P.maxfun) := by
  unfold tsIter
  dsimp only []
  split_ifs with h1 h2 h3 h4 <;> simp <;> omega

/-- The counter never decreases across a single pass. -/
theorem tsIter_feval_mono (P : TSParams) (s : TSState) : s.feval ≤ (tsIter P s).1.feval := by
  rcases tsIter_feval_shape P s with h | ⟨h, _⟩ <;> omega

/-- The counter never decreases across the loop. -/
theorem tsLoop_feval_mono (P : TSParams) : ∀ (fuel : ℕ) (s : TSState),
    s.feval ≤ (tsLoop P fuel s).feval := by
  intro fuel
  induction fuel with
  | zero => intro s; simp [tsLoop]
  | succ k ih =>
    intro s
    unfold tsLoop
    have hmono := tsIter_feval_mono P s
    rcases hiter : tsIter P s with ⟨s1, b⟩
    rw [hiter] at hmono
    cases b
    · simpa using hmono
    · simpa using le_trans hmono (ih s1)

/-- The loop keeps the counter within the budget. -/
theorem tsLoop_feval_le (P : TSParams) : ∀ (fuel : ℕ) (s : TSState),
    s.feval ≤ P.maxfun → (tsLoop P fuel s).feval ≤ P.maxfun := by
  intro fuel
  induction fuel with
  | zero => intro s h; simpa [tsLoop] using h
  | succ k ih =>
    intro s h
    unfold tsLoop
    have hshape := tsIter_feval_shape P s
    rcases hiter : tsIter P s with ⟨s1, b⟩
    rw [hiter] at hshape
    dsimp only at hshape
    have hs1 : s1.feval ≤ P.maxfun := by rcases hshape with h1 | ⟨_, h2⟩ <;> omega
    cases b
    · simpa using hs1
    · simpa using ih s1 hs1

/-- Claim C7: the evaluation counter starts at 0, never decreases across
iterations, only ever grows by the current level's point count times the
evaluation multiplier, and the returned feval never exceeds maxfun. -/
theorem claim7_feval_invariant (f : ℝ → EF) (a b : EF) (maxfun maxiter : ℕ)
    (atol rtol minweight : ℝ) :
    ts_init.feval = 0 ∧
    (∀ (P : TSParams) (s : TSState),
      (tsIter P s).1.feval = s.feval ∨
      ((tsIter P s).1.feval = s.feval + (tsXj P.a P.b s.n).length * P.ff ∧
        (tsIter P s).1.feval ≤ P.maxfun)) ∧
    (∀ (P : TSParams) (fuel : ℕ) (s : TSState), s.feval ≤ (tsLoop P fuel s).feval) ∧
    (tanhsinh f a b maxfun maxiter atol rtol minweight).feval ≤ maxfun :=
  ⟨rfl, fun P s => tsIter_feval_shape P s, fun P fuel s => tsLoop_feval_mono P fuel s,
    tsLoop_feval_le _ maxiter ts_init (Nat.zero_le _)⟩

/-- A pass whose budget check fails changes only the status, to 1. -/
theorem tsIter_budget (P : TSParams) (s : TSState)
    (h : P.maxfun < s.feval + (tsXj P.a P.b s.n).length * P.ff) :
    tsIter P s = ({ s with status := 1 }, false) := by
  unfold tsIter
  dsimp only []
  rw [if_pos h]

/-- When even the first level exceeds the budget, the whole loop stops at
once with status 1 and an otherwise untouched initial state. -/
theorem tsLoop_budget_break (P : TSParams) (k : ℕ) (h : P.maxfun < 14 * P.ff) :
    tsLoop P (k + 1) ts_init = { ts_init with status := 1 } := by
  have hlen : (tsXj P.a P.b ts_init.n).length = 14 := by
    rw [tsXj_length]
    norm_num [ts_init, ts_N_zero]
  have hcond : P.maxfun < ts_init.feval + (tsXj P.a P.b ts_init.n).length * P.ff := by
    rw [hlen]
    simpa [ts_init] using h
  unfold tsLoop
  rw [tsIter_budget P ts_init hcond]

/-- Claim C6: if maxfun is smaller than the evaluations needed for the
first level (the 14 level-0 points times the evaluation multiplier), the
engine stops before evaluating anything: status 1 (FUNCTION_LIMIT),
integral NaN, and feval 0. -/
theorem claim6_function_limit (f : ℝ → EF) (a b : EF) (maxfun maxiter : ℕ)
    (atol rtol minweight : ℝ)
    (hm : maxfun < 14 * ivFF f a b) (hiter : 1 ≤ maxiter) :
    (tanhsinh f a b maxfun maxiter atol rtol minweight).status = 1 ∧
    (tanhsinh f a b maxfun maxiter atol rtol minweight).integral = EF.nan ∧
    (tanhsinh f a b maxfun maxiter atol rtol minweight).feval = 0 := by
  obtain ⟨k, rfl⟩ : ∃ k, maxiter = k + 1 := ⟨maxiter - 1, by omega⟩
  have hbreak := tsLoop_budget_break (tanhsinhParams f a b maxfun atol rtol minweight) k hm
  unfold tanhsinh tanhsinhFinal tsRun
  rw [hbreak]
  exact ⟨rfl, rfl, rfl⟩

/-- Witness for claim C6 at a concrete call with maxfun 3 < 14. -/
theorem claim6_function_limit_witness :
    (tanhsinh (fun _ => EF.fin 0) (EF.fin 0) EF.pinf 3 1 0 1 1).status = 1 ∧
    (tanhsinh (fun _ => EF.fin 0) (EF.fin 0) EF.pinf 3 1 0 1 1).integral = EF.nan ∧
    (tanhsinh (fun _ => EF.fin 0) (EF.fin 0) EF.pinf 3 1 0 1 1).feval = 0 :=
  claim6_function_limit (fun _ => EF.fin 0) (EF.fin 0) EF.pinf 3 1 0 1 1
    (by rw [show ivFF (fun _ => EF.fin 0) (EF.fin 0) EF.pinf = 1 from rfl]; decide)
    (by decide)

/-- One pass advances the level counter by at most one and never lowers it. -/
theorem tsIter_n_shape (P : TSParams) (s : TSState) :
    (tsIter P s).1.n = s.n ∨ (tsIter P s).1.n = s.n + 1 := by
  unfold tsIter
  dsimp only []
  split_ifs <;> simp

/-- Before the third level the error estimate is never written. -/
theorem tsIter_aerr_low (P : TSParams) (s : TSState) (h : s.n < 2) :
    (tsIter P s).1.aerr = s.aerr := by
  unfold tsIter
  dsimp only []
  split_ifs with h1 h2 h3 h4 <;> first | rfl | omega

/-- Once the error estimate has been written, the level counter has
passed 2; before that it is still NaN. -/
theorem tsIter_aerr_inv (P : TSParams) (s : TSState)
    (h : s.aerr = EF.nan ∨ 2 ≤ s.n) :
    (tsIter P s).1.aerr = EF.nan ∨ 2 ≤ (tsIter P s).1.n := by
  unfold tsIter
  dsimp only []
  split_ifs with h1 h2 h3 h4 <;>
    first
      | exact h
      | exact Or.inr h3
      | exact Or.inr (le_trans h3 (Nat.le_succ _))
      | (rcases h with ha | hn
         · exact Or.inl ha
         · exact Or.inr (le_trans hn (Nat.le_succ _)))

/-- The loop preserves the aerr/level invariant. -/
theorem tsLoop_aerr_inv (P : TSParams) : ∀ (fuel : ℕ) (s : TSState),
    (s.aerr = EF.nan ∨ 2 ≤ s.n) →
    ((tsLoop P fuel s).aerr = EF.nan ∨ 2 ≤ (tsLoop P fuel s).n) := by
  intro fuel
  induction fuel with
  | zero => intro s h; simpa [tsLoop] using h
  | succ k ih =>
    intro s h
    unfold tsLoop
    have hstep := tsIter_aerr_inv P s h
    rcases hiter : tsIter P s with ⟨s1, b⟩
    rw [hiter] at hstep
    dsimp only at hstep
    cases b
    · simpa using hstep
    · simpa using ih s1 hstep

/-- A run whose level counter cannot reach 2 leaves the error estimate NaN. -/
theorem tsLoop_nan_short (P : TSParams) : ∀ (fuel : ℕ) (s : TSState),
    s.aerr = EF.nan → s.n + fuel ≤ 2 → (tsLoop P fuel s).aerr = EF.nan := by
  intro fuel
  induction fuel with
  | zero => intro s h _; simpa [tsLoop] using h
  | succ k ih =>
    intro s h hn
    unfold tsLoop
    have hlow : s.n < 2 := by omega
    have hstep := tsIter_aerr_low P s hlow
    have hshape := tsIter_n_shape P s
    rcases hiter : tsIter P s with ⟨s1, b⟩
    rw [hiter] at hstep hshape
    dsimp only at hstep hshape
    cases b
    · simpa using hstep.trans h
    · refine ih s1 (hstep.trans h) ?_
      rcases hshape with h1 | h1 <;> omega

/-- Claim C9: the returned error is NaN whenever the engine terminates
before an iteration with n at least 2 could run its convergence check; in
particular error is NaN when the final level counter is below 2, and for
any maxiter of at most 2. -/
theorem claim9_error_nan (f : ℝ → EF) (a b : EF) (maxfun maxiter : ℕ)
    (atol rtol minweight : ℝ) :
    ((tanhsinhFinal f a b maxfun maxiter atol rtol minweight).n < 2 →
      (tanhsinh f a b maxfun maxiter atol rtol minweight).error = EF.nan) ∧
    (maxiter ≤ 2 →
      (tanhsinh f a b maxfun maxiter atol rtol minweight).error = EF.nan) := by
  constructor
  · intro hn
    unfold tanhsinhFinal tsRun at hn
    have hinv := tsLoop_aerr_inv (tanhsinhParams f a b maxfun atol rtol minweight)
      maxiter ts_init (Or.inl rfl)
    rcases hinv with h | h
    · exact h
    · exact absurd h (by omega)
  · intro hiter
    exact tsLoop_nan_short (tanhsinhParams f a b maxfun atol rtol minweight)
      maxiter ts_init rfl (by simpa [ts_init] using hiter)

/-- Witness for claim C9 at a concrete call that stops on the budget
check of the very first level (maxfun 3, maxiter 1). -/
theorem claim9_error_nan_witness :
    (tanhsinh (fun _ => EF.fin 0) (EF.fin 0) EF.pinf 3 1 0 1 1).error = EF.nan ∧
    (tanhsinh (fun _ => EF.fin 0) (EF.fin 0) EF.pinf 3 1 0 1 1).error = EF.nan := by
  have h := claim9_error_nan (fun _ => EF.fin 0) (EF.fin 0) EF.pinf 3 1 0 1 1
  refine ⟨h.1 ?_, h.2 (by decide)⟩
  rw [show tanhsinhFinal (fun _ => EF.fin 0) (EF.fin 0) EF.pinf 3 1 0 1 1 =
    { ts_init with status := 1 } from tsLoop_budget_break _ 0
      (by rw [show (tanhsinhParams (fun _ => EF.fin 0) (EF.fin 0) EF.pinf 3 0 1 1).ff = 1
              from rfl]; decide)]
  decide

/-- Membership in a zipWith comes from members of both lists. -/
theorem mem_of_mem_zipWith {α β γ : Type} (g : α → β → γ) :
    ∀ (l1 : List α) (l2 : List β) (c : γ),
    c ∈ List.zipWith g l1 l2 → ∃ x ∈ l1, ∃ y ∈ l2, c = g x y := by
  intro l1
  induction l1 with
  | nil => intro l2 c h; simp at h
  | cons x xs ih =>
    intro l2 c h
    cases l2 with
    | nil => simp at h
    | cons y ys =>
      simp only [List.zipWith, List.mem_cons] at h
      rcases h with h | h
      · exact ⟨x, by simp, y, by simp, h⟩
      · rcases ih ys c h with ⟨x1, hx1, y1, hy1, hc⟩
        exact ⟨x1, by simp [hx1], y1, by simp [hy1], hc⟩

/-- With equal limits every constructed abscissa is that common limit. -/
theorem tsXj_diag (r : ℝ) (n : ℕ) : ∀ x ∈ tsXj r r n, x = r := by
  intro x hx
  unfold tsXj tsAlpha at hx
  simp only [sub_self, zero_div, neg_zero, zero_mul, zero_add, List.mem_append,
    List.mem_map] at hx
  rcases hx with ⟨c, _, hc⟩ | ⟨c, _, hc⟩ <;> exact hc.symm

/-- With equal limits the boundary filter zeroes every contribution. -/
theorem tsFjwj_diag (f : ℝ → EF) (r minweight : ℝ) (n : ℕ) :
    ∀ v ∈ tsFjwj f r r minweight n, v = EF.fin 0 := by
  intro v hv
  unfold tsFjwj at hv
  rcases mem_of_mem_zipWith _ _ _ _ hv with ⟨w, _, p, hp, hc⟩
  have hx : p.1 ∈ tsXj r r n := by
    rcases List.of_mem_zip hp with ⟨h1, _⟩
    exact h1
  have hxr : p.1 = r := tsXj_diag r n p.1 hx
  have hinv : tsInvalid r r minweight p.1 p.2 := Or.inl (le_of_eq hxr)
  rw [hc, if_pos hinv]

/-- A list of zeros has last-or-default zero. -/
theorem getLastD_zero : ∀ (l : List ℝ), (∀ x ∈ l, x = 0) → ∀ d, d = 0 → l.getLastD d = 0 := by
  intro l
  induction l with
  | nil => intro _ d hd; simpa using hd
  | cons x xs ih =>
    intro h d _
    rw [List.getLastD_cons]
    exact ih (fun y hy => h y (by simp [hy])) x (h x (by simp))

/-- The contributions with equal limits are all finite. -/
theorem tsFjwj_diag_finite (f : ℝ → EF) (r minweight : ℝ) (n : ℕ) :
    (tsFjwj f r r minweight n).all efIsFinite = true := by
  rw [List.all_eq_true]
  intro v hv
  rw [tsFjwj_diag f r minweight n v hv]
  rfl

/-- One pass with equal limits computes a zero level sum and preserves the
invariant. -/
theorem tsIter_diag (P : TSParams) (s : TSState) (hab : P.a = P.b)
    (hinv : DiagInv s) : DiagInv (tsIter P s).1 := by
  rcases hinv with ⟨hSk, hSn, hst⟩
  have hfin := tsFjwj_diag_finite P.f P.b P.minweight s.n
  have hsum : ((tsFjwj P.f P.b P.b P.minweight s.n).map efToReal).sum = 0 := by
    apply List.sum_eq_zero
    intro x hx
    rcases List.mem_map.mp hx with ⟨v, hv, hvx⟩
    rw [← hvx, tsFjwj_diag P.f P.b P.minweight s.n v hv]
    rfl
  have hlast : s.Sk.getLastD 0 = 0 := getLastD_zero s.Sk hSk 0 rfl
  have hSnval : s.Sk.getLastD 0 / 2 +
      ((tsFjwj P.f P.b P.b P.minweight s.n).map efToReal).sum * ts_h s.n = 0 := by
    rw [hlast, hsum]
    ring
  unfold tsIter
  dsimp only []
  rw [hab]
  split_ifs with h1 h2 h3
  · exact ⟨hSk, hSn, by simp⟩
  · refine ⟨hSk, ?_, by simp⟩
    simpa using congrArg EF.fin hSnval
  · refine ⟨?_, ?_, hst⟩
    · intro x hx
      rcases List.mem_append.mp hx with hx | hx
      · exact hSk x hx
      · rw [List.mem_singleton.mp hx]
        simpa using hSnval
    · simpa using congrArg EF.fin hSnval
  · refine ⟨?_, ?_, hst⟩
    · intro x hx
      rcases List.mem_append.mp hx with hx | hx
      · exact hSk x hx
      · rw [List.mem_singleton.mp hx]
        simpa using hSnval
    · simpa using congrArg EF.fin hSnval

/-- The loop with equal limits preserves the invariant. -/
theorem tsLoop_diag (P : TSParams) (hab : P.a = P.b) : ∀ (fuel : ℕ) (s : TSState),
    DiagInv s → DiagInv (tsLoop P fuel s) := by
  intro fuel
  induction fuel with
  | zero =>
    intro s h
    rcases h with ⟨h1, h2, _⟩
    exact ⟨h1, h2, by simp [tsLoop]⟩
  | succ k ih =>
    intro s h
    unfold tsLoop
    have hstep := tsIter_diag P s hab h
    rcases hiter : tsIter P s with ⟨s1, b⟩
    rw [hiter] at hstep
    dsimp only at hstep
    cases b
    · simpa using hstep
    · simpa using ih s1 hstep

/-- With equal limits the level sum of contributions vanishes. -/
theorem tsFjwj_diag_sum (f : ℝ → EF) (r minweight : ℝ) (n : ℕ) :
    ((tsFjwj f r r minweight n).map efToReal).sum = 0 := by
  apply List.sum_eq_zero
  intro x hx
  rcases List.mem_map.mp hx with ⟨v, hv, hvx⟩
  rw [← hvx, tsFjwj_diag f r minweight n v hv]
  rfl

/-- The transform chain is the identity on equal finite limits. -/
theorem quadts_iv_diag (f : ℝ → EF) (r : ℝ) :
    quadts_iv f (EF.fin r) (EF.fin r) = (f, EF.fin r, EF.fin r, 1) := by
  unfold quadts_iv iv_stage1 iv_stage2 iv_stage3
  simp [efLtB, efIsInfB, lt_irrefl]

/-- The first pass with equal limits completes, appending the zero
estimate and spending 14 evaluations times the multiplier. -/
theorem tsIter_init_diag (P : TSParams) (hab : P.a = P.b) (hbud : 14 * P.ff ≤ P.maxfun) :
    tsIter P ts_init = ({ n := 1, Sk := [(0 : ℝ)], Sn := EF.fin 0, aerr := EF.nan, status := -1, feval := 14 * P.ff }, true) := by
  have hlen : (tsXj P.b P.b (0 : ℕ)).length = 14 := by
    rw [tsXj_length]
    norm_num [ts_N_zero]
  have hfin := tsFjwj_diag_finite P.f P.b P.minweight 0
  have hsum := tsFjwj_diag_sum P.f P.b P.minweight 0
  unfold tsIter
  dsimp only [ts_init]
  rw [hab]
  rw [if_neg (by rw [hlen]; omega)]
  rw [if_neg (by simp [hfin])]
  rw [if_neg (by omega : ¬ (2 : ℕ) ≤ 0)]
  simp [hsum, hlen]

/-- Claim C10: with finite equal limits (a = b) and a budget admitting the
first level, alpha is 0, every constructed abscissa equals the common
limit, status 3 is never returned (the filter zeroes everything, whatever
the integrand returns), every appended estimate is 0, and the returned
integral is 0. -/
theorem claim10_equal_limits (f : ℝ → EF) (r : ℝ) (maxfun maxiter : ℕ)
    (atol rtol minweight : ℝ) (hm : 14 ≤ maxfun) (hiter : 1 ≤ maxiter) :
    tsAlpha r r = 0 ∧
    (∀ (n : ℕ), ∀ x ∈ tsXj r r n, x = r) ∧
    (tanhsinh f (EF.fin r) (EF.fin r) maxfun maxiter atol rtol minweight).integral = EF.fin 0 ∧
    (tanhsinh f (EF.fin r) (EF.fin r) maxfun maxiter atol rtol minweight).status ≠ 3 ∧
    (∀ x ∈ (tanhsinhFinal f (EF.fin r) (EF.fin r) maxfun maxiter atol rtol minweight).Sk, x = 0) := by
  obtain ⟨k, rfl⟩ : ∃ k, maxiter = k + 1 := ⟨maxiter - 1, by omega⟩
  have hP : tanhsinhParams f (EF.fin r) (EF.fin r) maxfun atol rtol minweight =
      ⟨f, r, r, maxfun, atol, rtol, minweight, 1⟩ := by
    unfold tanhsinhParams
    rw [quadts_iv_diag]
    rfl
  have hfirst := tsIter_init_diag ⟨f, r, r, maxfun, atol, rtol, minweight, 1⟩ rfl
    (by simpa using hm)
  have hrun : tanhsinhFinal f (EF.fin r) (EF.fin r) maxfun (k + 1) atol rtol minweight =
      tsLoop ⟨f, r, r, maxfun, atol, rtol, minweight, 1⟩ k
        ({ n := 1, Sk := [(0 : ℝ)], Sn := EF.fin 0, aerr := EF.nan, status := -1, feval := 14 * 1 }) := by
    unfold tanhsinhFinal tsRun
    rw [hP]
    conv_lhs => rw [tsLoop]
    rw [hfirst]
  have hinv1 : DiagInv ({ n := 1, Sk := [(0 : ℝ)], Sn := EF.fin 0, aerr := EF.nan, status := -1, feval := 14 * 1 } : TSState) := by
    refine ⟨?_, rfl, by decide⟩
    intro x hx
    simpa using hx
  have hdiag := tsLoop_diag ⟨f, r, r, maxfun, atol, rtol, minweight, 1⟩ rfl k _ hinv1
  rcases hdiag with ⟨hSk, hSn, hst⟩
  refine ⟨by simp [tsAlpha], fun n => tsXj_diag r n, ?_, ?_, ?_⟩
  · show (tanhsinhFinal f (EF.fin r) (EF.fin r) maxfun (k + 1) atol rtol minweight).Sn = EF.fin 0
    rw [hrun]
    exact hSn
  · show (tanhsinhFinal f (EF.fin r) (EF.fin r) maxfun (k + 1) atol rtol minweight).status ≠ 3
    rw [hrun]
    exact hst
  · rw [hrun]
    exact hSk

/-- Witness for claim C10: an everywhere-NaN integrand on the degenerate
interval with both limits 1 still yields integral 0 without status 3. -/
theorem claim10_equal_limits_witness :
    tsAlpha 1 1 = 0 ∧
    (∀ (n : ℕ), ∀ x ∈ tsXj 1 1 n, x = (1 : ℝ)) ∧
    (tanhsinh (fun _ => EF.nan) (EF.fin 1) (EF.fin 1) 5000 10 0 1 1).integral = EF.fin 0 ∧
    (tanhsinh (fun _ => EF.nan) (EF.fin 1) (EF.fin 1) 5000 10 0 1 1).status ≠ 3 ∧
    (∀ x ∈ (tanhsinhFinal (fun _ => EF.nan) (EF.fin 1) (EF.fin 1) 5000 10 0 1 1).Sk, x = 0) :=
  claim10_equal_limits (fun _ => EF.nan) 1 5000 10 0 1 1 (by decide) (by decide)

/-- The filtered contribution array is all finite exactly when every index
is filtered out or carries a finite raw contribution. -/
theorem all_filtered_iff (a b mw : ℝ) : ∀ (v : List EF) (xs ws : List ℝ),
    v.length = xs.length → xs.length = ws.length →
    (((List.zipWith (fun c (p : ℝ × ℝ) => if tsInvalid a b mw p.1 p.2 then EF.fin 0 else c)
        v (xs.zip ws)).all efIsFinite = true) ↔
      ∀ i < v.length, tsInvalid a b mw (xs.getD i 0) (ws.getD i 0) ∨
        efIsFinite (v.getD i EF.nan) = true) := by
  intro v
  induction v with
  | nil => intro xs ws h1 h2; simp
  | cons c cs ih =>
    intro xs ws h1 h2
    cases xs with
    | nil => simp at h1
    | cons x xt =>
      cases ws with
      | nil => simp at h2
      | cons w wt =>
        simp only [List.zip_cons_cons, List.zipWith_cons_cons, List.all_cons, Bool.and_eq_true]
        rw [ih xt wt (by simpa using h1) (by simpa using h2)]
        constructor
        · rintro ⟨hhead, htail⟩ i hi
          cases i with
          | zero =>
            simp only [List.getD_cons_zero]
            by_cases hinv : tsInvalid a b mw x w
            · exact Or.inl hinv
            · rw [if_neg hinv] at hhead
              exact Or.inr hhead
          | succ j =>
            simp only [List.getD_cons_succ]
            exact htail j (by simpa using hi)
        · intro h
          constructor
          · have h0 := h 0 (by simp)
            simp only [List.getD_cons_zero] at h0
            by_cases hinv : tsInvalid a b mw x w
            · rw [if_pos hinv]; rfl
            · rw [if_neg hinv]
              rcases h0 with h0 | h0
              · exact absurd h0 hinv
              · exact h0
          · intro j hj
            have hs := h (j + 1) (by simpa using hj)
            simpa using hs

/-- Entrywise view of the filtering step. -/
theorem filtered_getD (a b mw : ℝ) : ∀ (v : List EF) (xs ws : List ℝ) (i : ℕ),
    i < v.length → v.length = xs.length → xs.length = ws.length →
    (List.zipWith (fun c (p : ℝ × ℝ) => if tsInvalid a b mw p.1 p.2 then EF.fin 0 else c)
        v (xs.zip ws)).getD i EF.nan =
      if tsInvalid a b mw (xs.getD i 0) (ws.getD i 0) then EF.fin 0 else v.getD i EF.nan := by
  intro v
  induction v with
  | nil => intro xs ws i hi _ _; simp at hi
  | cons c cs ih =>
    intro xs ws i hi h1 h2
    cases xs with
    | nil => simp at h1
    | cons x xt =>
      cases ws with
      | nil => simp at h2
      | cons w wt =>
        simp only [List.zip_cons_cons, List.zipWith_cons_cons]
        cases i with
        | zero => simp
        | succ j =>
          simp only [List.getD_cons_succ]
          exact ih xt wt j (by simpa using hi) (by simpa using h1) (by simpa using h2)

/-- Entrywise view of the raw products `fj * wj`. -/
theorem zipWith_efMul_map_getD (f : ℝ → EF) : ∀ (xs ws : List ℝ) (i : ℕ),
    i < xs.length → xs.length = ws.length →
    (List.zipWith efMul (xs.map f) (ws.map EF.fin)).getD i EF.nan =
      efMul (f (xs.getD i 0)) (EF.fin (ws.getD i 0)) := by
  intro xs
  induction xs with
  | nil => intro ws i hi _; simp at hi
  | cons x xt ih =>
    intro ws i hi h2
    cases ws with
    | nil => simp at h2
    | cons w wt =>
      simp only [List.map_cons, List.zipWith_cons_cons]
      cases i with
      | zero => simp
      | succ j =>
        simp only [List.getD_cons_succ]
        exact ih wt j (by simpa using hi) (by simpa using h2)

/-- The raw contribution array has one entry per abscissa. -/
theorem tsFjwjRaw_length (f : ℝ → EF) (a b : ℝ) (n : ℕ) :
    (tsFjwjRaw f a b n).length = (tsXj a b n).length := by
  simp [tsFjwjRaw, tsXj_length, tsWj2_length]

/-- The filtered contribution array has one entry per abscissa. -/
theorem tsFjwj_length (f : ℝ → EF) (a b mw : ℝ) (n : ℕ) :
    (tsFjwj f a b mw n).length = (tsXj a b n).length := by
  simp [tsFjwj, tsFjwjRaw, tsXj_length, tsWj2_length]

/-- Claim C5: contributions at or beyond the endpoints, or with weight at
or below minweight, are zeroed before the validity check; given the level
is funded, the pass sets status 3 exactly when some unfiltered raw
contribution is non-finite; an infinite integrand value at an interior
point with weight above a positive minweight forces status 3; and a
status 3 result reports success = false. -/
theorem claim5_status3 (P : TSParams) (s : TSState) (hst : s.status = -1)
    (hbud : ¬ P.maxfun < s.feval + (tsXj P.a P.b s.n).length * P.ff) :
    (∀ i < (tsXj P.a P.b s.n).length,
        tsInvalid P.a P.b P.minweight ((tsXj P.a P.b s.n).getD i 0) ((tsWj2 P.a P.b s.n).getD i 0) →
        (tsFjwj P.f P.a P.b P.minweight s.n).getD i EF.nan = EF.fin 0) ∧
    ((tsIter P s).1.status = 3 ↔
      ∃ i < (tsXj P.a P.b s.n).length,
        ¬ tsInvalid P.a P.b P.minweight ((tsXj P.a P.b s.n).getD i 0) ((tsWj2 P.a P.b s.n).getD i 0) ∧
        efIsFinite ((tsFjwjRaw P.f P.a P.b s.n).getD i EF.nan) = false) ∧
    (0 < P.minweight →
      ∀ i < (tsXj P.a P.b s.n).length,
        P.a < (tsXj P.a P.b s.n).getD i 0 →
        (tsXj P.a P.b s.n).getD i 0 < P.b →
        P.minweight < (tsWj2 P.a P.b s.n).getD i 0 →
        P.f ((tsXj P.a P.b s.n).getD i 0) = EF.pinf →
        (tsIter P s).1.status = 3) ∧
    (∀ st : TSState, st.status = 3 → (mkResult st).success = false) := by
  have hlenx := tsXj_length P.a P.b s.n
  have hlenw := tsWj2_length P.a P.b s.n
  have hlenraw := tsFjwjRaw_length P.f P.a P.b s.n
  have hiff := all_filtered_iff P.a P.b P.minweight (tsFjwjRaw P.f P.a P.b s.n)
    (tsXj P.a P.b s.n) (tsWj2 P.a P.b s.n) hlenraw (by omega)
  have hstatus : ((tsIter P s).1.status = 3 ↔
      ¬ (tsFjwj P.f P.a P.b P.minweight s.n).all efIsFinite = true) := by
    unfold tsIter
    dsimp only []
    rw [if_neg hbud]
    by_cases hfin : (tsFjwj P.f P.a P.b P.minweight s.n).all efIsFinite = true
    · rw [if_neg (by simpa using hfin)]
      split_ifs with h1 h2 <;> simp [hst, hfin]
    · rw [if_pos (by simpa using hfin)]
      simpa using hfin
  have hiff2 : ((tsIter P s).1.status = 3 ↔
      ∃ i < (tsXj P.a P.b s.n).length,
        ¬ tsInvalid P.a P.b P.minweight ((tsXj P.a P.b s.n).getD i 0) ((tsWj2 P.a P.b s.n).getD i 0) ∧
        efIsFinite ((tsFjwjRaw P.f P.a P.b s.n).getD i EF.nan) = false) := by
    rw [hstatus]
    unfold tsFjwj
    rw [hiff]
    rw [hlenraw]
    constructor
    · intro h
      push_neg at h
      rcases h with ⟨i, hilt, hninv, hnfin⟩
      exact ⟨i, hilt, hninv, by simpa using hnfin⟩
    · rintro ⟨i, hilt, hninv, hnfin⟩ hall
      rcases hall i hilt with h | h
      · exact hninv h
      · rw [hnfin] at h
        exact Bool.false_ne_true h
  refine ⟨?_, hiff2, ?_, ?_⟩
  · intro i hilt hinv
    unfold tsFjwj
    rw [filtered_getD P.a P.b P.minweight _ _ _ i (by omega) hlenraw (by omega), if_pos hinv]
  · intro hmw i hilt hax hxb hwj hf
    apply hiff2.mpr
    refine ⟨i, hilt, ?_, ?_⟩
    · unfold tsInvalid
      push_neg
      exact ⟨hax, hxb, hwj⟩
    · unfold tsFjwjRaw
      rw [zipWith_efMul_map_getD P.f _ _ i (by omega) (by omega), hf]
      have hw0 : 0 < (tsWj2 P.a P.b s.n).getD i 0 := lt_trans hmw hwj
      have hmulinf : efMul EF.pinf (EF.fin ((tsWj2 P.a P.b s.n).getD i 0)) = EF.pinf := by
        simp only [efMul]
        rw [if_pos hw0]
      rw [hmulinf]
      rfl
  · intro st hst3
    unfold mkResult
    simp [hst3]

/-- M = 7 at level 0. -/
theorem ts_count_zero : ts_count 0 = 7 := by
  unfold ts_count
  rw [Nat.ceil_eq_iff] <;> norm_num

/-- The level-0 midpoint abscissa complement is 1. -/
theorem xjc_formula_zero : xjc_formula (ts_h 0) 0 = 1 := by
  unfold xjc_formula
  norm_num [Real.sinh_zero, Real.exp_zero, Real.cosh_zero]

/-- The level-0 midpoint raw weight is pi/2. -/
theorem wj_formula_zero : wj_formula (ts_h 0) 0 = Real.pi / 2 := by
  unfold wj_formula
  norm_num [Real.sinh_zero, Real.cosh_zero]

/-- On the interval (-1000, 1000) the first level-0 abscissa is the
midpoint 0. -/
theorem level0_x0 : (tsXj (-1000) 1000 0).getD 0 0 = 0 := by
  unfold tsXj ts_xjc ts_indices
  rw [if_pos rfl, ts_count_zero, List.range_succ_eq_map]
  simp only [List.map_cons, List.cons_append, List.getD_cons_zero]
  rw [xjc_formula_zero]
  unfold tsAlpha
  norm_num

/-- On the interval (-1000, 1000) the first level-0 scaled weight is 250 pi. -/
theorem level0_w0 : (tsWj2 (-1000) 1000 0).getD 0 0 = 250 * Real.pi := by
  unfold tsWj2 ts_wj ts_indices
  rw [if_pos rfl, ts_count_zero, List.range_succ_eq_map]
  simp only [List.map_cons, List.modifyHead, List.cons_append, List.getD_cons_zero, if_true]
  rw [wj_formula_zero]
  unfold tsAlpha
  ring

/-- That scaled weight exceeds the minweight 1 used in the witness. -/
theorem level0_w0_big : (1 : ℝ) < (tsWj2 (-1000) 1000 0).getD 0 0 := by
  rw [level0_w0]
  nlinarith [Real.pi_gt_three]

/-- The first level-0 abscissa is interior (lower side). -/
theorem level0_x0_lower : (-1000 : ℝ) < (tsXj (-1000) 1000 0).getD 0 0 := by
  rw [level0_x0]
  norm_num

/-- The first level-0 abscissa is interior (upper side). -/
theorem level0_x0_upper : (tsXj (-1000) 1000 0).getD 0 0 < (1000 : ℝ) := by
  rw [level0_x0]
  norm_num

/-- The level-0 abscissa array on (-1000, 1000) has 14 entries, so a
budget of 100 funds the first level. -/
theorem level0_budget : ¬ (100 : ℕ) < 0 + (tsXj (-1000 : ℝ) 1000 0).length * 1 := by
  rw [tsXj_length, ts_N_zero]
  decide

/-- The level-0 abscissa array on (-1000, 1000) is nonempty. -/
theorem level0_len_pos : 0 < (tsXj (-1000 : ℝ) 1000 0).length := by
  rw [tsXj_length, ts_N_zero]
  decide

/-- Witness for claim C5: a constant +infinity integrand on (-1000, 1000)
with minweight 1 drives the first pass to status 3, and a status 3 state
reports success = false. -/
theorem claim5_status3_witness :
    (tsIter ⟨fun _ => EF.pinf, -1000, 1000, 100, 0, 1, 1, 1⟩ ts_init).1.status = 3 ∧
    (mkResult ⟨0, [], EF.nan, EF.nan, 3, 0⟩).success = false := by
  have h := claim5_status3 ⟨fun _ => EF.pinf, -1000, 1000, 100, 0, 1, 1, 1⟩ ts_init rfl
    level0_budget
  exact ⟨h.2.2.1 zero_lt_one 0 level0_len_pos level0_x0_lower level0_x0_upper level0_w0_big rfl,
    h.2.2.2 ⟨0, [], EF.nan, EF.nan, 3, 0⟩ rfl⟩

/-- The engine's relative error estimate is literally the claim's formula. -/
theorem engineRerr_eq_spec (Sn Snm1 Snm2 : ℝ) (c : List ℝ) (N : ℕ) :
    engineRerr Sn Snm1 Snm2 c N = specRerr Sn Snm1 Snm2 c N := rfl

/-- The engine's absolute error estimate is literally the claim's formula. -/
theorem engineAerr_eq_spec (rerr : EF) (Sn : ℝ) : engineAerr rerr Sn = specAerr rerr Sn := rfl

/-- The engine's termination test is literally the claim's rule. -/
theorem engineConverged_iff_spec (rerr : EF) (Sn rtol atol : ℝ) :
    engineConverged rerr Sn rtol atol = true ↔ specConverged rerr Sn rtol atol := by
  unfold engineConverged specConverged
  rw [Bool.or_eq_true]

/-- Claim C3: the convergence check runs only at n >= 2; when it runs (the
level is funded and all filtered contributions are finite), the pass
terminates with status 0 exactly when rerr < rtol or rerr*|Sn| < atol for
rerr = 10^max(d1^2/d2, 2 d1, d3, d4), and it stores
aerr = max(machine epsilon, rerr) * |Sn|, with Snm1, Snm2 the two most
recently appended estimates. -/
theorem claim3_convergence_rule (P : TSParams) (s : TSState) (hst : s.status = -1)
    (hn : 2 ≤ s.n)
    (hbud : ¬ P.maxfun < s.feval + (tsXj P.a P.b s.n).length * P.ff)
    (hfin : (tsFjwj P.f P.a P.b P.minweight s.n).all efIsFinite = true) :
    (∀ (s2 : TSState), s2.status = -1 → s2.n < 2 →
      (tsIter P s2).1.status ≠ 0 ∧ (tsIter P s2).1.aerr = s2.aerr) ∧
    (((tsIter P s).1.status = 0) ↔
      specConverged
        (specRerr (s.Sk.getLastD 0 / 2 + ((tsFjwj P.f P.a P.b P.minweight s.n).map efToReal).sum * ts_h s.n)
          (s.Sk.getLastD 0) (s.Sk.dropLast.getLastD 0)
          ((tsFjwj P.f P.a P.b P.minweight s.n).map efToReal) (ts_N s.n))
        (s.Sk.getLastD 0 / 2 + ((tsFjwj P.f P.a P.b P.minweight s.n).map efToReal).sum * ts_h s.n)
        P.rtol P.atol) ∧
    ((tsIter P s).1.aerr =
      specAerr
        (specRerr (s.Sk.getLastD 0 / 2 + ((tsFjwj P.f P.a P.b P.minweight s.n).map efToReal).sum * ts_h s.n)
          (s.Sk.getLastD 0) (s.Sk.dropLast.getLastD 0)
          ((tsFjwj P.f P.a P.b P.minweight s.n).map efToReal) (ts_N s.n))
        (s.Sk.getLastD 0 / 2 + ((tsFjwj P.f P.a P.b P.minweight s.n).map efToReal).sum * ts_h s.n)) := by
  refine ⟨?_, ?_⟩
  · intro s2 hs2 hn2
    unfold tsIter
    dsimp only []
    split_ifs with h1 h2 h3 h4
    · refine ⟨?_, rfl⟩
      show (1 : ℤ) ≠ 0
      decide
    · exact absurd h3 (by omega)
    · exact absurd h3 (by omega)
    · refine ⟨?_, rfl⟩
      show s2.status ≠ 0
      rw [hs2]
      decide
    · refine ⟨?_, rfl⟩
      show (3 : ℤ) ≠ 0
      decide
  · unfold tsIter
    dsimp only []
    rw [if_neg hbud, if_neg (by simpa using hfin), if_pos hn]
    split_ifs with hc
    · refine ⟨iff_of_true rfl ?_, rfl⟩
      exact (engineConverged_iff_spec _ _ _ _).mp hc
    · refine ⟨?_, rfl⟩
      refine iff_of_false (by rw [hst]; decide) ?_
      intro hs
      exact hc ((engineConverged_iff_spec _ _ _ _).mpr hs)

/-- Level 2 generates 12 pairs (M = ceil(6.115 * 4) = 25, odd indices). -/
theorem ts_N_two : ts_N 2 = 12 := by
  have h25 : ts_count 2 = 25 := by
    unfold ts_count
    rw [Nat.ceil_eq_iff] <;> norm_num
  simp [ts_N, ts_indices, h25]

/-- A constant finite integrand keeps every filtered contribution finite. -/
theorem tsFjwj_const_finite (x a b mw : ℝ) (n : ℕ) :
    (tsFjwj (fun _ => EF.fin x) a b mw n).all efIsFinite = true := by
  rw [List.all_eq_true]
  intro v hv
  unfold tsFjwj at hv
  rcases mem_of_mem_zipWith _ _ _ v hv with ⟨c, hc, p, _, hveq⟩
  rw [hveq]
  split_ifs
  · rfl
  · unfold tsFjwjRaw at hc
    rcases mem_of_mem_zipWith _ _ _ c hc with ⟨x1, hx1, y1, hy1, hceq⟩
    rcases List.mem_map.mp hx1 with ⟨u, _, hux⟩
    rcases List.mem_map.mp hy1 with ⟨w, _, hwy⟩
    rw [hceq, ← hux, ← hwy]
    rfl

/-- Witness for claim C3, exercising its hypotheses at level 2 of a
constant-zero integrand on (-1000, 1000) and its gating conjunct at the
initial state. -/
theorem claim3_convergence_rule_witness :
    (tsIter ⟨fun _ => EF.fin 0, -1000, 1000, 1000, 0, 1, 1, 1⟩ ts_init).1.status ≠ 0 ∧
    (tsIter ⟨fun _ => EF.fin 0, -1000, 1000, 1000, 0, 1, 1, 1⟩ ts_init).1.aerr = ts_init.aerr :=
  (claim3_convergence_rule ⟨fun _ => EF.fin 0, -1000, 1000, 1000, 0, 1, 1, 1⟩
      ⟨2, [0, 0], EF.fin 0, EF.nan, -1, 0⟩ rfl (Nat.le_refl 2)
      (by rw [tsXj_length, ts_N_two]; decide)
      (tsFjwj_const_finite 0 (-1000) 1000 1 2)).1 ts_init rfl (by decide)

/-- Negating one factor negates an IEEE product with a finite factor. -/
theorem efMul_negLeft (u : EF) (w : ℝ) :
    efMul (efNeg u) (EF.fin w) = efNeg (efMul u (EF.fin w)) := by
  cases u <;> simp only [efNeg, efMul] <;> try split_ifs <;> simp [efNeg]
  ring

/-- Negating both summands negates an IEEE sum. -/
theorem efAdd_neg (u v : EF) : efAdd (efNeg u) (efNeg v) = efNeg (efAdd u v) := by
  cases u <;> cases v <;> simp [efAdd, efNeg]
  ring

/-- Negation preserves finiteness. -/
theorem efIsFinite_neg (v : EF) : efIsFinite (efNeg v) = efIsFinite v := by
  cases v <;> rfl

/-- Negation commutes with the real extraction. -/
theorem efToReal_neg (v : EF) : efToReal (efNeg v) = -(efToReal v) := by
  cases v <;> simp [efNeg, efToReal]

/-- Negation preserves the all-finite test. -/
theorem all_finite_map_neg (l : List EF) :
    (l.map efNeg).all efIsFinite = l.all efIsFinite := by
  induction l with
  | nil => rfl
  | cons x xs ih => simp [efIsFinite_neg, ih]

/-- Extraction of the negated contributions is the negated extraction. -/
theorem map_efToReal_neg (l : List EF) :
    (l.map efNeg).map efToReal = (l.map efToReal).map (fun x => -x) := by
  simp only [List.map_map]
  apply List.map_congr_left
  intro v _
  simp [efToReal_neg]

/-- Sum of a negated list of reals. -/
theorem sum_map_neg (l : List ℝ) : (l.map (fun x => -x)).sum = -l.sum := by
  induction l with
  | nil => simp
  | cons x xs ih => simp [ih]; ring

/-- Last-or-default of a negated list, for negated default. -/
theorem getLastD_map_neg (l : List ℝ) : ∀ d : ℝ, (l.map (fun x => -x)).getLastD (-d) = -(l.getLastD d) := by
  induction l with
  | nil => intro d; simp
  | cons x xs ih =>
    intro d
    simp only [List.map_cons, List.getLastD_cons]
    exact ih x

/-- Last-or-default zero of a negated list. -/
theorem getLastD_map_neg_zero (l : List ℝ) : (l.map (fun x => -x)).getLastD 0 = -(l.getLastD 0) := by
  have h := getLastD_map_neg l 0
  simpa using h

/-- Entry of a negated list. -/
theorem getD_map_neg (l : List ℝ) (i : ℕ) : (l.map (fun x => -x)).getD i 0 = -(l.getD i 0) := by
  have h : (List.map (fun x => -x) l).getD i (-(0 : ℝ)) = -(l.getD i 0) :=
    List.getD_map l (0 : ℝ) (fun x => -x)
  simpa using h

/-- Absolute values are unchanged by negating a list. -/
theorem map_abs_map_neg (l : List ℝ) : ((l.map (fun x => -x)).map abs) = l.map abs := by
  simp only [List.map_map]
  apply List.map_congr_left
  intro v _
  simp [abs_neg]

/-- Raw contributions of the negated integrand are the negated raw
contributions. -/
theorem zipWith_efMul_neg (f g : ℝ → EF) (h : ∀ x, g x = efNeg (f x)) :
    ∀ (xs ws : List ℝ),
    List.zipWith efMul (xs.map g) (ws.map EF.fin) =
      (List.zipWith efMul (xs.map f) (ws.map EF.fin)).map efNeg := by
  intro xs
  induction xs with
  | nil => intro ws; simp
  | cons x xt ih =>
    intro ws
    cases ws with
    | nil => simp
    | cons w wt =>
      simp only [List.map_cons, List.zipWith_cons_cons]
      rw [ih wt, h x, efMul_negLeft]

/-- Filtering commutes with negation of the contributions (a filtered slot
is zero, and the negation of zero is zero). -/
theorem zipWith_filter_neg (a b mw : ℝ) : ∀ (v : List EF) (ps : List (ℝ × ℝ)),
    List.zipWith (fun c (p : ℝ × ℝ) => if tsInvalid a b mw p.1 p.2 then EF.fin 0 else c)
        (v.map efNeg) ps =
      (List.zipWith (fun c (p : ℝ × ℝ) => if tsInvalid a b mw p.1 p.2 then EF.fin 0 else c)
        v ps).map efNeg := by
  intro v
  induction v with
  | nil => intro ps; simp
  | cons c ct ih =>
    intro ps
    cases ps with
    | nil => simp
    | cons p pt =>
      simp only [List.map_cons, List.zipWith_cons_cons]
      rw [ih pt]
      congr 1
      split_ifs
      · simp [efNeg]
      · rfl

/-- The filtered contributions of the negated integrand are the negated
filtered contributions. -/
theorem tsFjwj_neg (f g : ℝ → EF) (h : ∀ x, g x = efNeg (f x)) (a b mw : ℝ) (n : ℕ) :
    tsFjwj g a b mw n = (tsFjwj f a b mw n).map efNeg := by
  unfold tsFjwj tsFjwjRaw
  rw [zipWith_efMul_neg f g h, zipWith_filter_neg]

/-- The error exponent is invariant under negating the estimates and the
contributions. -/
theorem engineD_neg (Sn Snm1 Snm2 : ℝ) (c : List ℝ) (N : ℕ) :
    engineD (-Sn) (-Snm1) (-Snm2) (c.map (fun x => -x)) N = engineD Sn Snm1 Snm2 c N := by
  unfold engineD engineD4
  have h1 : |-Sn - -Snm1| = |Sn - Snm1| := by
    rw [show -Sn - -Snm1 = -(Sn - Snm1) by ring, abs_neg]
  have h2 : |-Sn - -Snm2| = |Sn - Snm2| := by
    rw [show -Sn - -Snm2 = -(Sn - Snm2) by ring, abs_neg]
  rw [h1, h2, map_abs_map_neg, getD_map_neg, getD_map_neg, abs_neg, abs_neg]

/-- The relative error estimate is invariant under negation. -/
theorem engineRerr_neg (Sn Snm1 Snm2 : ℝ) (c : List ℝ) (N : ℕ) :
    engineRerr (-Sn) (-Snm1) (-Snm2) (c.map (fun x => -x)) N = engineRerr Sn Snm1 Snm2 c N := by
  unfold engineRerr
  rw [engineD_neg]

/-- The absolute error estimate is invariant under negating the estimate. -/
theorem engineAerr_neg (rerr : EF) (Sn : ℝ) : engineAerr rerr (-Sn) = engineAerr rerr Sn := by
  unfold engineAerr
  rw [abs_neg]

/-- The termination test is invariant under negating the estimate. -/
theorem engineConverged_neg (rerr : EF) (Sn rtol atol : ℝ) :
    engineConverged rerr (-Sn) rtol atol = engineConverged rerr Sn rtol atol := by
  unfold engineConverged
  rw [abs_neg]

/-- Last-or-default zero after dropping the last element of a negated list. -/
theorem dropLast_getLastD_map_neg (l : List ℝ) :
    ((l.map (fun x => -x)).dropLast).getLastD 0 = -(l.dropLast.getLastD 0) := by
  rw [show (l.map (fun x => -x)).dropLast = l.dropLast.map (fun x => -x) from
    (List.map_dropLast _ l).symm]
  exact getLastD_map_neg_zero _

/-- One pass of the engine on the negated integrand from the negated state
is the negated pass: the estimates flip sign and everything else (status,
counters, error estimate, continue flag) is identical. -/
theorem tsIter_neg (P : TSParams) (s : TSState) :
    tsIter { P with f := fun x => efNeg (P.f x) } (negState s) =
      (negState (tsIter P s).1, (tsIter P s).2) := by
  have hfj := tsFjwj_neg P.f (fun x => efNeg (P.f x)) (fun _ => rfl) P.a P.b P.minweight s.n
  unfold tsIter
  dsimp only [negState]
  rw [hfj, all_finite_map_neg, map_efToReal_neg, sum_map_neg, getLastD_map_neg_zero,
    dropLast_getLastD_map_neg]
  have hSn : -s.Sk.getLastD 0 / 2 +
      -((tsFjwj P.f P.a P.b P.minweight s.n).map efToReal).sum * ts_h s.n =
      -(s.Sk.getLastD 0 / 2 +
        ((tsFjwj P.f P.a P.b P.minweight s.n).map efToReal).sum * ts_h s.n) := by
    ring
  rw [hSn, engineRerr_neg, engineAerr_neg, engineConverged_neg]
  split_ifs <;> simp [negState, efNeg, List.map_append]

/-- The whole loop on the negated integrand from the negated state is the
negated loop. -/
theorem tsLoop_neg (P : TSParams) : ∀ (fuel : ℕ) (s : TSState),
    tsLoop { P with f := fun x => efNeg (P.f x) } fuel (negState s) =
      negState (tsLoop P fuel s) := by
  intro fuel
  induction fuel with
  | zero => intro s; simp [tsLoop, negState]
  | succ k ih =>
    intro s
    unfold tsLoop
    rw [tsIter_neg]
    rcases hiter : tsIter P s with ⟨s1, b⟩
    cases b
    · rfl
    · exact ih s1

/-- IEEE strict order is asymmetric. -/
theorem efLtB_asymm (a b : EF) (h : efLtB a b = true) : efLtB b a = false := by
  cases a <;> cases b <;> simp_all [efLtB]
  exact le_of_lt h

/-- The second and third transform stages turn a pointwise-negated
integrand into the pointwise-negated transformed integrand, leaving the
limits and the evaluation multiplier unchanged. -/
theorem stages_neg (f g : ℝ → EF) (hfg : ∀ x, g x = efNeg (f x)) (a b : EF) :
    (∀ x, (iv_stage3 (iv_stage2 (g, a, b))).1 x = efNeg ((iv_stage3 (iv_stage2 (f, a, b))).1 x)) ∧
    (iv_stage3 (iv_stage2 (g, a, b))).2 = (iv_stage3 (iv_stage2 (f, a, b))).2 := by
  unfold iv_stage2
  dsimp only []
  split_ifs with h1 h2
  · unfold iv_stage3
    dsimp only []
    split_ifs with h3
    · refine ⟨?_, rfl⟩
      intro x
      dsimp only
      rw [hfg, hfg, efAdd_neg, efMul_negLeft]
    · refine ⟨?_, rfl⟩
      intro x
      dsimp only
      rw [hfg, hfg, efAdd_neg]
  · unfold iv_stage3
    dsimp only []
    split_ifs with h3
    · refine ⟨?_, rfl⟩
      intro x
      dsimp only
      rw [hfg, efMul_negLeft]
    · refine ⟨?_, rfl⟩
      intro x
      dsimp only
      rw [hfg]
  · unfold iv_stage3
    dsimp only []
    split_ifs with h3
    · refine ⟨?_, rfl⟩
      intro x
      dsimp only
      rw [hfg, efMul_negLeft]
    · exact ⟨hfg, rfl⟩

/-- With a < b, the transform of the reversed call (b, a) produces the
pointwise-negated integrand with the same limits and multiplier. -/
theorem quadts_iv_reversed (f : ℝ → EF) (a b : EF) (h : efLtB a b = true) :
    (∀ x, (quadts_iv f b a).1 x = efNeg ((quadts_iv f a b).1 x)) ∧
    (quadts_iv f b a).2 = (quadts_iv f a b).2 := by
  unfold quadts_iv iv_stage1
  rw [h, efLtB_asymm a b h]
  simp only [if_true, if_false, Bool.false_eq_true]
  exact stages_neg f (fun x => efNeg (f x)) (fun _ => rfl) a b

/-- Claim C8: with a < b, calling the quadrature over (b, a) returns the
exact negation of the integral over (a, b) with identical error, feval,
status and success, because the transform only swaps the limits and
negates the integrand. -/
theorem claim8_reversed_limits (f : ℝ → EF) (a b : EF) (maxfun maxiter : ℕ)
    (atol rtol minweight : ℝ) (h : efLtB a b = true) :
    (tanhsinh f b a maxfun maxiter atol rtol minweight).integral =
      efNeg (tanhsinh f a b maxfun maxiter atol rtol minweight).integral ∧
    (tanhsinh f b a maxfun maxiter atol rtol minweight).error =
      (tanhsinh f a b maxfun maxiter atol rtol minweight).error ∧
    (tanhsinh f b a maxfun maxiter atol rtol minweight).feval =
      (tanhsinh f a b maxfun maxiter atol rtol minweight).feval ∧
    (tanhsinh f b a maxfun maxiter atol rtol minweight).status =
      (tanhsinh f a b maxfun maxiter atol rtol minweight).status ∧
    (tanhsinh f b a maxfun maxiter atol rtol minweight).success =
      (tanhsinh f a b maxfun maxiter atol rtol minweight).success := by
  rcases quadts_iv_reversed f a b h with ⟨hfun, hrest⟩
  have hP2 : tanhsinhParams f b a maxfun atol rtol minweight =
      { tanhsinhParams f a b maxfun atol rtol minweight with
        f := fun x => efNeg ((tanhsinhParams f a b maxfun atol rtol minweight).f x) } := by
    unfold tanhsinhParams
    dsimp only []
    rw [hrest]
    simp only [TSParams.mk.injEq, and_true, true_and]
    exact funext hfun
  have hfinal : tanhsinhFinal f b a maxfun maxiter atol rtol minweight =
      negState (tanhsinhFinal f a b maxfun maxiter atol rtol minweight) := by
    unfold tanhsinhFinal tsRun
    rw [hP2]
    exact tsLoop_neg (tanhsinhParams f a b maxfun atol rtol minweight) maxiter ts_init
  unfold tanhsinh
  rw [hfinal]
  exact ⟨rfl, rfl, rfl, rfl, rfl⟩

/-- Witness for claim C8 at the reversed doubly infinite limits. -/
theorem claim8_reversed_limits_witness :
    (tanhsinh (fun _ => EF.fin 1) EF.pinf EF.ninf 5000 10 0 1 1).integral =
      efNeg (tanhsinh (fun _ => EF.fin 1) EF.ninf EF.pinf 5000 10 0 1 1).integral ∧
    (tanhsinh (fun _ => EF.fin 1) EF.pinf EF.ninf 5000 10 0 1 1).error =
      (tanhsinh (fun _ => EF.fin 1) EF.ninf EF.pinf 5000 10 0 1 1).error ∧
    (tanhsinh (fun _ => EF.fin 1) EF.pinf EF.ninf 5000 10 0 1 1).feval =
      (tanhsinh (fun _ => EF.fin 1) EF.ninf EF.pinf 5000 10 0 1 1).feval ∧
    (tanhsinh (fun _ => EF.fin 1) EF.pinf EF.ninf 5000 10 0 1 1).status =
      (tanhsinh (fun _ => EF.fin 1) EF.ninf EF.pinf 5000 10 0 1 1).status ∧
    (tanhsinh (fun _ => EF.fin 1) EF.pinf EF.ninf 5000 10 0 1 1).success =
      (tanhsinh (fun _ => EF.fin 1) EF.ninf EF.pinf 5000 10 0 1 1).success :=
  claim8_reversed_limits (fun _ => EF.fin 1) EF.ninf EF.pinf 5000 10 0 1 1 rfl
